import Mathlib

/-!
# A verification model of the disk_delta repository

This file gives a shallow embedding, in Lean 4, of the core of the
`disk_delta` repository and proves (or refutes) the testable properties
claimed for it.

The repository contains two parallel drafts of the implementation:

* the package at `diskdelta/` (modules `__init__.py`, `message.py`,
  `bitbuffer.py`, `block_hash_store.py`, `index_hash_mapper.py`) —
  modelled below in namespace `DD`;
* the package at `src/diskdelta/` (same module names, plus
  `delta_decoder.py`) — modelled below in namespace `SD`.

Conventions of the embedding:

* Python `bytes` values are `List Nat` (each element a byte value);
  `bitarray` values are `List Bool`, most significant bit of each byte
  first, exactly as `bitarray.frombytes`/`tobytes` lay bits out.
* Machine integers are `Nat` with explicit `% 2 ^ 32` where the source
  relies on 32-bit wrap-around (SHA-256 internals).
* Fallible code is `Option`/`Except String`; a Python exception that the
  caller does not catch is an `Except.error` carrying the message of the
  `raise` (or the exception class name for `KeyError`).
* File contents are explicit `List Nat` states threaded through the
  functions that the source implements over file handles.
-/

/-- Byte strings (`bytes` in the source): lists of byte values. -/
abbrev Bytes : Type := List Nat

/-- Bit strings (`bitarray` in the source): lists of bits, MSB-first
within every byte. -/
abbrev BitStr : Type := List Bool

/-- The eight bits of one byte, most significant first — the layout
`bitarray.frombytes` produces for a single byte. -/
def byteBits (b : Nat) : BitStr :=
  [b.testBit 7, b.testBit 6, b.testBit 5, b.testBit 4,
   b.testBit 3, b.testBit 2, b.testBit 1, b.testBit 0]

/-- `bitarray.frombytes` on a byte string: concatenated MSB-first bits. -/
def bytesBits (bs : Bytes) : BitStr := bs.flatMap byteBits

/-- The byte value of at most eight bits, as `bitarray.tobytes` packs
them: the first bit lands in the most significant position and the tail
of the byte is padded with zero bits. -/
def bitsToByte (l : BitStr) : Nat :=
  (l ++ List.replicate (8 - l.length) false).foldl
    (fun a b => 2 * a + (if b then 1 else 0)) 0

/-- Fuel-driven worker for `bitsToBytes` (structural recursion so that
the kernel can evaluate it). -/
def bitsToBytesGo : Nat → BitStr → Bytes
  | _, [] => []
  | 0, _ :: _ => []
  | fuel + 1, x :: xs =>
      bitsToByte ((x :: xs).take 8) :: bitsToBytesGo fuel ((x :: xs).drop 8)

/-- `bitarray.tobytes`: pack a bit string into bytes, zero-padding the
final partial byte. -/
def bitsToBytes (l : BitStr) : Bytes := bitsToBytesGo l.length l

/-- `int(bits.to01(), 2)`: the value of a bit string read as a
big-endian binary numeral. (The source never parses an empty string.) -/
def natFromBits (l : BitStr) : Nat :=
  l.foldl (fun a b => 2 * a + (if b then 1 else 0)) 0

/-- `int.from_bytes(data)` with big-endian byte order. -/
def natFromBytesBE (bs : Bytes) : Nat :=
  bs.foldl (fun a b => 256 * a + b) 0

/-- `v.to_bytes(length=len)` with big-endian byte order (the source
always computes `len` large enough to hold `v`). -/
def natToBytesBE (len v : Nat) : Bytes :=
  match len with
  | 0 => []
  | n + 1 => natToBytesBE n (v / 256) ++ [v % 256]

/-- Fuel-driven binary length (structural recursion so that the kernel
can evaluate it; any fuel `≥ v` gives Python's `v.bit_length()`). -/
def bitLenGo : Nat → Nat → Nat
  | 0, _ => 0
  | fuel + 1, v => if v = 0 then 0 else bitLenGo fuel (v / 2) + 1

/-- Python's `v.bit_length()`: the number of binary digits of `v`, zero
for zero. -/
def bitLen (v : Nat) : Nat := bitLenGo v v

/-- The length of Python's `f"{v:b}"`: one digit for zero, otherwise the
bit length of `v`. -/
def binDigits (v : Nat) : Nat := if v = 0 then 1 else bitLen v

/-- Python's `f"{v:0{w}b}"` as a bit string: the binary numeral of `v`,
left-padded with zeros to width `w` (and longer than `w` when `v` needs
more digits — Python pads but never truncates). -/
def natBitsPadded (w v : Nat) : BitStr :=
  List.replicate (w - binDigits v) false
    ++ (List.range (binDigits v)).map (fun i => v.testBit (binDigits v - 1 - i))

/-- `get_index_bits_size` (`src/diskdelta/message.py` 409–417) and
`get_needed_bits` (`diskdelta/message.py` 357–365): the number of bits
needed to represent `value`, with `0 ↦ 1`; for positive `v` Python's
`v.bit_length()` equals `Nat.log2 v + 1`. -/
def getIndexBitsSize (value : Nat) : Nat :=
  if value = 0 then 1 else bitLen value

namespace Sha256

/-!
SHA-256 over byte strings, as `hashlib.sha256` computes it; the
`Hasher` classes of both drafts truncate this digest.
-/

def two32 : Nat := 4294967296

def rotr (n x : Nat) : Nat := ((x >>> n) ||| (x <<< (32 - n))) % two32

def smallSigma0 (x : Nat) : Nat := (rotr 7 x) ^^^ (rotr 18 x) ^^^ (x >>> 3)

def smallSigma1 (x : Nat) : Nat := (rotr 17 x) ^^^ (rotr 19 x) ^^^ (x >>> 10)

def bigSigma0 (x : Nat) : Nat := (rotr 2 x) ^^^ (rotr 13 x) ^^^ (rotr 22 x)

def bigSigma1 (x : Nat) : Nat := (rotr 6 x) ^^^ (rotr 11 x) ^^^ (rotr 25 x)

def roundK : List Nat :=
  [1116352408, 1899447441, 3049323471, 3921009573, 961987163,
   1508970993, 2453635748, 2870763221, 3624381080, 310598401,
   607225278, 1426881987, 1925078388, 2162078206, 2614888103,
   3248222580, 3835390401, 4022224774, 264347078, 604807628,
   770255983, 1249150122, 1555081692, 1996064986, 2554220882,
   2821834349, 2952996808, 3210313671, 3336571891, 3584528711,
   113926993, 338241895, 666307205, 773529912, 1294757372,
   1396182291, 1695183700, 1986661051, 2177026350, 2456956037,
   2730485921, 2820302411, 3259730800, 3345764771, 3516065817,
   3600352804, 4094571909, 275423344, 430227734, 506948616,
   659060556, 883997877, 958139571, 1322822218, 1537002063,
   1747873779, 1955562222, 2024104815, 2227730452, 2361852424,
   2428436474, 2756734187, 3204031479, 3329325298]

def initH : List Nat :=
  [1779033703, 3144134277, 1013904242, 2773480762,
   1359893119, 2600822924, 528734635, 1541459225]

def padMessage (msg : List Nat) : List Nat :=
  msg ++ [0x80] ++ List.replicate ((64 + 55 - msg.length % 64) % 64) 0
      ++ natToBytesBE 8 (8 * msg.length)

def wordsOfBytes : List Nat → List Nat
  | b0 :: b1 :: b2 :: b3 :: rest =>
      (((b0 * 256 + b1) * 256 + b2) * 256 + b3) :: wordsOfBytes rest
  | _ => []

def scheduleStep (w : List Nat) : List Nat :=
  let n := w.length
  w ++ [(smallSigma1 (w.getD (n - 2) 0) + w.getD (n - 7) 0 +
         smallSigma0 (w.getD (n - 15) 0) + w.getD (n - 16) 0) % two32]

def schedule (w16 : List Nat) : List Nat :=
  (List.range 48).foldl (fun w _ => scheduleStep w) w16

def compressRound (st : List Nat) (kw : Nat × Nat) : List Nat :=
  let a := st.getD 0 0
  let b := st.getD 1 0
  let c := st.getD 2 0
  let d := st.getD 3 0
  let e := st.getD 4 0
  let f := st.getD 5 0
  let g := st.getD 6 0
  let h := st.getD 7 0
  let ch := (e &&& f) ^^^ ((two32 - 1 - e) &&& g)
  let maj := (a &&& b) ^^^ (a &&& c) ^^^ (b &&& c)
  let t1 := (h + bigSigma1 e + ch + kw.1 + kw.2) % two32
  let t2 := (bigSigma0 a + maj) % two32
  [(t1 + t2) % two32, a, b, c, (d + t1) % two32, e, f, g]

def compress (h : List Nat) (block : List Nat) : List Nat :=
  let w := schedule (wordsOfBytes block)
  let st := (roundK.zip w).foldl compressRound h
  (h.zip st).map (fun p => (p.1 + p.2) % two32)

/-- Fuel-driven 64-byte chunking (structural so the kernel evaluates it;
the fuel `l.length` always suffices). -/
def chunks64Go : Nat → List Nat → List (List Nat)
  | _, [] => []
  | 0, _ :: _ => []
  | fuel + 1, x :: xs => (x :: xs).take 64 :: chunks64Go fuel ((x :: xs).drop 64)

def chunks64 (l : List Nat) : List (List Nat) := chunks64Go l.length l

def sha256 (msg : List Nat) : List Nat :=
  ((chunks64 (padMessage msg)).foldl compress initH).flatMap (natToBytesBE 4)

end Sha256

/-- `Hasher.hash` of `src/diskdelta/index_hash_mapper.py` (lines 16–27):
SHA-256 truncated to `⌈hash_size/8⌉` bytes with the low
`8 - hash_size % 8` bits of the last byte masked to zero when
`hash_size` is not a multiple of 8. `hash_size` is in bits. -/
def hasherHash (hashSize : Nat) (data : Bytes) : Bytes :=
  let numBytes := (hashSize + 7) / 8
  let fullHash := Sha256.sha256 data
  let hashBytes := fullHash.take numBytes
  if hashSize % 8 ≠ 0 then
    hashBytes.dropLast ++
      [hashBytes.getLastD 0 &&& ((0xFF <<< (8 - hashSize % 8)) &&& 0xFF)]
  else
    hashBytes

/-- The number of blocks the sequential `load` loops of both drafts'
`IndexHashMapper` classes process: they call `f.read(block_size)` until
it returns an empty string, so a trailing partial block still counts
(and a zero block size reads `b""` at once). Fuel-driven structural
recursion; the fuel `image.length` suffices. -/
def numReadBlocksGo : Nat → Nat → Bytes → Nat
  | _, _, [] => 0
  | 0, _, _ :: _ => 0
  | fuel + 1, blockSize, x :: xs =>
      if blockSize = 0 then 0
      else 1 + numReadBlocksGo fuel blockSize ((x :: xs).drop blockSize)

/-- Blocks processed by a sequential block-sized read loop over `image`
(the value of `IndexHashMapper.size()` in `diskdelta/` and of the block
count both `__init__` drafts compare). -/
def numReadBlocks (blockSize : Nat) (image : Bytes) : Nat :=
  numReadBlocksGo image.length blockSize image

namespace SD

/-!
Model of the `src/diskdelta/` package.
-/

/-- State of `BitReader` (`src/diskdelta/bitbuffer.py` 7–19): `bytes` is
the not-yet-fully-consumed suffix of the file (the ≥ 1 MiB read-ahead
buffer and the rest of the file joined — refills always succeed until
the file is exhausted, so chunk boundaries never change behaviour);
`bitIndex` is `buffer_bit_index`, the number of bits already consumed
from the head byte (`0 ≤ bitIndex < 8`; when it is positive the head
byte is the partially consumed current byte). -/
structure RState where
  bitIndex : Nat
  bytes : Bytes
deriving DecidableEq

/-- Outcome of `BitReader.read`: the returned bit string with the
successor state, the `None` end-of-input return, or the
`raise ValueError("Not enough bits to read")` escape. -/
inductive ReadResult where
  | ok (bits : BitStr) (st : RState)
  | eof
  | truncated
deriving DecidableEq

/-- The bits returned by a successful read, if any. -/
def ReadResult.bits? : ReadResult → Option BitStr
  | .ok bits _ => some bits
  | _ => none

/-- `BitReader.read` (`src/diskdelta/bitbuffer.py` 21–85). Control flow
of the source: (1) serve remaining bits of the current byte, returning
at once when they satisfy the request; (2) compute the whole-byte count
`num_bits // 8`; if it exceeds the bytes left, the refill loop finds an
empty file and returns `None` — discarding the bits read so far; (3)
read the whole bytes; (4) if the sub-byte remainder `num_bits % 8` is
positive but no byte is left, `raise ValueError("Not enough bits to
read")`; otherwise take the leading bits of the next byte. -/
def readBits (numBits : Nat) (st : RState) : ReadResult :=
  let step :=
    if st.bitIndex > 0 then
      let currentBits := byteBits (st.bytes.getD 0 0)
      if numBits < 8 - st.bitIndex then
        none
      else
        some (currentBits.drop st.bitIndex, numBits - (8 - st.bitIndex),
              st.bytes.drop 1)
    else
      some ([], numBits, st.bytes)
  match step with
  | none =>
      .ok ((byteBits (st.bytes.getD 0 0)).drop st.bitIndex |>.take numBits)
        ⟨st.bitIndex + numBits, st.bytes⟩
  | some (pre, n, bytes) =>
      let bytesToRead := n / 8
      let rem := n % 8
      if bytesToRead > bytes.length then
        .eof
      else
        let bits := pre ++ bytesBits (bytes.take bytesToRead)
        let rest := bytes.drop bytesToRead
        if rem = 0 then
          .ok bits ⟨0, rest⟩
        else
          match rest with
          | [] => .truncated
          | b :: _ => .ok (bits ++ (byteBits b).take rem) ⟨rem, rest⟩

/-- The number of unread bits a reader state still holds. -/
def remainingBits (st : RState) : Nat := 8 * st.bytes.length - st.bitIndex

/-- State of `BitWriter` (`src/diskdelta/bitbuffer.py` 88–96): the bytes
already written to the file, the bit position inside the pending byte,
and the pending byte's accumulated value. -/
structure WState where
  file : Bytes
  bitIndex : Nat
  currentByte : Nat
deriving DecidableEq

/-- A fresh `BitWriter` over an empty file. -/
def writerInit : WState := ⟨[], 0, 0⟩

/-- `BitWriter.write` (`src/diskdelta/bitbuffer.py` 105–131): fill the
pending byte from the MSB side, flush it when complete, emit the whole
bytes, and hold the final partial byte. Writing an empty bit string
while a partial byte is pending evaluates `bits.tobytes()[0]` on an
empty array — an `IndexError`, modelled as `none` (the drafts never
write an empty bit string). -/
def writerWrite (bits0 : BitStr) (st : WState) : Option WState :=
  let step :=
    if st.bitIndex > 0 then
      let newBits := bits0.take (8 - st.bitIndex)
      if newBits.length = 0 then
        none
      else
        let cur := st.currentByte ||| (bitsToByte newBits >>> st.bitIndex)
        let bi := st.bitIndex + newBits.length
        if bi = 8 then
          some (WState.mk (st.file ++ [cur]) 0 0, bits0.drop newBits.length)
        else
          some (WState.mk st.file bi cur, bits0.drop newBits.length)
    else
      some (st, bits0)
  match step with
  | none => none
  | some (st1, bits) =>
      let k := bits.length / 8
      let file := st1.file ++ bitsToBytes (bits.take (8 * k))
      let bits2 := bits.drop (8 * k)
      if bits2.length = 0 then
        some ⟨file, st1.bitIndex, st1.currentByte⟩
      else
        some ⟨file, bits2.length, bitsToByte bits2⟩

/-- `BitWriter.__exit__` (`src/diskdelta/bitbuffer.py` 100–103): flush
the pending partial byte, zero-padded, and return the file contents. -/
def writerClose (st : WState) : Bytes :=
  if st.bitIndex > 0 then st.file ++ [st.currentByte] else st.file

/-- `BlockHashStore` (`src/diskdelta/block_hash_store.py`): block size
and digest size (in bits) it was opened with, the in-memory digest
list, and the backing file's bytes. -/
structure Store where
  blockSize : Nat
  digestSizeBits : Nat
  hashes : List Bytes
  file : Bytes
deriving DecidableEq

/-- Bytes per stored digest: `math.ceil(digest_size_bits / 8)`. -/
def Store.digestBytes (s : Store) : Nat := (s.digestSizeBits + 7) / 8

/-- `BlockHashStore.contains_hash` (lines 74–78). -/
def Store.containsHash (s : Store) (h : Bytes) : Bool :=
  decide (h ∈ s.hashes)

/-- `BlockHashStore.add` (`src/diskdelta/block_hash_store.py` 37–54):
validate the digest length, no-op when the digest is known, otherwise
append the digest to the list and `digest ‖ data` to the file. -/
def Store.add (s : Store) (h data : Bytes) : Except String Store :=
  if h.length ≠ s.digestBytes then
    .error "Hash is not the correct size"
  else if h ∈ s.hashes then
    .ok s
  else
    .ok ⟨s.blockSize, s.digestSizeBits, s.hashes ++ [h], s.file ++ h ++ data⟩

/-- Position of a digest in a list (`list.index`), `none` when absent
(where Python raises `ValueError`). -/
def idxOf (h : Bytes) : List Bytes → Option Nat
  | [] => none
  | x :: xs => if x = h then some 0 else (idxOf h xs).map (· + 1)

/-- `BlockHashStore.get_data_by_hash` (lines 56–72): locate the digest's
record and read the `block_size` literal bytes after the digest. -/
def Store.getDataByHash (s : Store) (h : Bytes) : Option Bytes :=
  (idxOf h s.hashes).map fun index =>
    (s.file.drop (index * (s.blockSize + s.digestBytes) + s.digestBytes)).take
      s.blockSize

/-- `IndexHashMapper.get_hash_by_index`
(`src/diskdelta/index_hash_mapper.py` 98–106): read block `index` of the
image and hash it (a read past the end returns the short or empty
slice, which is hashed like any other data). -/
def hashByIndex (hashBits blockSize : Nat) (image : Bytes) (index : Nat) :
    Bytes :=
  hasherHash hashBits ((image.drop (index * blockSize)).take blockSize)

/-- `IndexHashMapper.literal_by_index` (lines 108–114). -/
def literalByIndex (blockSize : Nat) (image : Bytes) (index : Nat) : Bytes :=
  (image.drop (index * blockSize)).take blockSize

/-- `IndexHashMapper.add_index_to_rle` (lines 78–87): extend the last
run when `index` continues it, else start a new `(index, 1)` run. -/
def addIndexToRle (rle : List (Nat × Nat)) (index : Nat) : List (Nat × Nat) :=
  match rle.getLast? with
  | none => rle ++ [(index, 1)]
  | some (lastIndex, count) =>
      if lastIndex + count = index then
        rle.dropLast ++ [(lastIndex, count + 1)]
      else
        rle ++ [(index, 1)]

/-- Update the bucket of digest `h` in the `indexes_by_hash` dictionary
(insertion order preserved, a fresh digest appended at the end, exactly
as a Python dict iterates). -/
def rleInsert : List (Bytes × List (Nat × Nat)) → Bytes → Nat →
    List (Bytes × List (Nat × Nat))
  | [], h, index => [(h, [(index, 1)])]
  | (k, v) :: rest, h, index =>
      if k = h then (k, addIndexToRle v index) :: rest
      else (k, v) :: rleInsert rest h index

/-- `IndexHashMapper.load` (`src/diskdelta/index_hash_mapper.py` 49–76):
the `indexes_by_hash` dictionary after hashing every block the read
loop yields, buckets in first-seen order, run-length encoded. -/
def mapperLoad (hashBits blockSize : Nat) (image : Bytes) :
    List (Bytes × List (Nat × Nat)) :=
  (List.range (numReadBlocks blockSize image)).foldl
    (fun m index => rleInsert m (hashByIndex hashBits blockSize image index) index)
    []

/-- `IndexHashMapper.get_indexes_by_hash` (lines 89–96): the bucket of
`h`, or `[]` when absent. -/
def getIndexesByHash (m : List (Bytes × List (Nat × Nat))) (h : Bytes) :
    List (Nat × Nat) :=
  match m.find? (fun kv => kv.1 = h) with
  | some kv => kv.2
  | none => []

end SD

/-- `DataType` (`src/diskdelta/message.py` 13–17; the draft at
`diskdelta/message.py` 10–14 uses the names `Literal`, `Hash`,
`DiskIndex`, `Reference` for the same four values 0–3). -/
inductive DataType where
  | literal
  | hashData
  | diskReference
  | messageReference
deriving DecidableEq

/-- The two-bit tag value of each kind (`Literal = 0`, `Hash = 1`,
`DiskReference = 2`, `MessageReference = 3`). -/
def DataType.tagVal : DataType → Nat
  | .literal => 0
  | .hashData => 1
  | .diskReference => 2
  | .messageReference => 3

/-- `DataType(value)` on a decoded tag: the kind for 0–3, otherwise the
decoder's `raise ValueError("Invalid data type")`. -/
def DataType.ofTag : Nat → Except String DataType
  | 0 => .ok .literal
  | 1 => .ok .hashData
  | 2 => .ok .diskReference
  | 3 => .ok .messageReference
  | _ => .error "Invalid data type"

/-- Dictionary lookup in a `digest → message index` map modelled as an
association list searched front-first. -/
def mapLookup (m : List (Bytes × Nat)) (h : Bytes) : Option Nat :=
  match m.find? (fun kv => kv.1 = h) with
  | some kv => some kv.2
  | none => none

/-- Dictionary assignment `m[h] = v`: the new binding shadows any older
one (front-first lookup). -/
def mapInsert (h : Bytes) (v : Nat) (m : List (Bytes × Nat)) :
    List (Bytes × Nat) :=
  (h, v) :: m

namespace SD

/-- `Instruction` (`src/diskdelta/message.py` 20–37): target disk
index, kind, and payload bytes (reference payloads are stored as the
big-endian `to_bytes` image of the index). -/
structure Instruction where
  diskIndex : Nat
  dataType : DataType
  data : Bytes
deriving DecidableEq

/-- `Instruction.__eq__` (lines 30–37): compare the three fields. -/
def instructionEq (i1 i2 : Instruction) : Bool :=
  (i1.diskIndex == i2.diskIndex) && decide (i1.dataType = i2.dataType)
    && (i1.data == i2.data)

/-- `Message` (`src/diskdelta/message.py` 73–100): the four header
width quantities, the instruction list, and the `hash_to_message_index`
dictionary. -/
structure Message where
  headerBitsSize : Nat
  changedBlockIndexSize : Nat
  diskRefBitsSize : Nat
  msgRefBitsSize : Nat
  instructions : List Instruction
  hashToMessageIndex : List (Bytes × Nat)
deriving DecidableEq

/-- `Message.__init__`: all widths zero, no instructions. -/
def emptyMessage : Message := ⟨0, 0, 0, 0, [], []⟩

/-- `Message.__eq__` (`src/diskdelta/message.py` 87–100): messages are
equal when their instruction lists have the same length and agree
element-wise under `Instruction.__eq__`. -/
def messageEq (m1 m2 : Message) : Bool :=
  (m1.instructions.length == m2.instructions.length)
    && (m1.instructions.zip m2.instructions).all fun p => instructionEq p.1 p.2

/-- `MessageBuilder.process_changed_block` (`src/diskdelta/message.py`
244–291). The four branches in source order; in the `Hash` branch the
source evaluates `message.hash_to_message_index[hash]`, but the first
branch's guard established that `hash` is *not* in that dictionary, so
the subscript raises `KeyError` — modelled as the error return. -/
def processChangedBlock (blockSize : Nat)
    (initRle : List (Bytes × List (Nat × Nat))) (targetImage : Bytes)
    (knownBlocks : Store) (index : Nat) (h : Bytes) (message : Message) :
    Except String Message :=
  match mapLookup message.hashToMessageIndex h with
  | some msgIndex =>
      let bytesNeeded := (getIndexBitsSize msgIndex + 7) / 8
      .ok { message with
              instructions := message.instructions ++
                [⟨index, .messageReference, natToBytesBE bytesNeeded msgIndex⟩] }
  | none =>
      if getIndexesByHash initRle h ≠ [] then
        let diskIndex := ((getIndexesByHash initRle h).getD 0 (0, 0)).1
        let bytesNeeded := (getIndexBitsSize diskIndex + 7) / 8
        let instructions := message.instructions ++
          [⟨index, .diskReference, natToBytesBE bytesNeeded diskIndex⟩]
        .ok { message with
                instructions,
                hashToMessageIndex :=
                  mapInsert h (instructions.length - 1)
                    message.hashToMessageIndex }
      else if knownBlocks.containsHash h then
        .error "KeyError"
      else
        let blockLiteral := (targetImage.drop (index * blockSize)).take blockSize
        let instructions := message.instructions ++
          [⟨index, .literal, blockLiteral⟩]
        .ok { message with
                instructions,
                hashToMessageIndex :=
                  mapInsert h (instructions.length - 1)
                    message.hashToMessageIndex }

/-- Mutable state of the `build_message` loop: the message being built,
the store (mutated by `add`), and the two running maxima. -/
structure BuildState where
  message : Message
  store : Store
  greatestDiskRef : Nat
  greatestMsgRef : Nat
deriving DecidableEq

/-- One-past-the-loop update of the running maxima
(`src/diskdelta/message.py` 216–225): inspect the instruction just
appended. -/
def updateGreatest (st : BuildState) (message : Message) (store : Store) :
    BuildState :=
  match message.instructions.getLast? with
  | some inst =>
      if inst.dataType = .diskReference then
        ⟨message, store,
         max st.greatestDiskRef (natFromBytesBE inst.data), st.greatestMsgRef⟩
      else if inst.dataType = .messageReference then
        ⟨message, store, st.greatestDiskRef,
         max st.greatestMsgRef (natFromBytesBE inst.data)⟩
      else ⟨message, store, st.greatestDiskRef, st.greatestMsgRef⟩
  | none => ⟨message, store, st.greatestDiskRef, st.greatestMsgRef⟩

/-- The `while disk_index < self.image_size` loop of `build_message`
(`src/diskdelta/message.py` 191–227), by recursion on the number of
remaining indices. Returns the final state together with the final
value of `disk_index`. -/
def buildLoop (hashBits blockSize : Nat) (initImage targetImage : Bytes)
    (initRle : List (Bytes × List (Nat × Nat))) :
    Nat → Nat → BuildState → Except String (BuildState × Nat)
  | 0, diskIndex, st => .ok (st, diskIndex)
  | remaining + 1, diskIndex, st =>
      let initialHash := hashByIndex hashBits blockSize initImage diskIndex
      if initialHash = [] then
        .ok (st, diskIndex)
      else
        let updatedHash := hashByIndex hashBits blockSize targetImage diskIndex
        if initialHash ≠ updatedHash then
          match processChangedBlock blockSize initRle targetImage st.store
              diskIndex updatedHash st.message with
          | .error e => .error e
          | .ok message =>
              match st.store.add updatedHash
                  (literalByIndex blockSize targetImage diskIndex) with
              | .error e => .error e
              | .ok store =>
                  buildLoop hashBits blockSize initImage targetImage initRle
                    remaining (diskIndex + 1) (updateGreatest st message store)
        else
          buildLoop hashBits blockSize initImage targetImage initRle
            remaining (diskIndex + 1) st

/-- The header width the encoder settles on
(`src/diskdelta/message.py` 231): `get_index_bits_size(image_size)`. -/
def encoderHeaderBits (imageSize : Nat) : Nat := getIndexBitsSize imageSize

/-- `MessageBuilder.build_message` (`src/diskdelta/message.py`
181–242): walk the blocks, then fix the four width quantities
(`header ← bits(N)`, `disk_ref`/`msg_ref ← bits(greatest seen)`,
`changed_block_index ← bits(final disk_index − 1)`). Returns the built
message together with the final store. -/
def buildMessage (imageSize hashBits blockSize : Nat)
    (initImage targetImage : Bytes) (store : Store) :
    Except String (Message × Store) :=
  let initRle := mapperLoad hashBits blockSize initImage
  match buildLoop hashBits blockSize initImage targetImage initRle imageSize 0
      ⟨emptyMessage, store, 0, 0⟩ with
  | .error e => .error e
  | .ok (st, diskIndex) =>
      .ok ({ st.message with
               headerBitsSize := encoderHeaderBits imageSize,
               diskRefBitsSize := getIndexBitsSize st.greatestDiskRef,
               msgRefBitsSize := getIndexBitsSize st.greatestMsgRef,
               changedBlockIndexSize := getIndexBitsSize (diskIndex - 1) },
           st.store)

end SD

namespace SD

/-- `Instruction.to_bitarray` (`src/diskdelta/message.py` 39–70): the
disk index in `disk_index_bits` bits, the two-bit kind tag, then the
payload — raw bytes for `Literal`/`Hash`, an integer field of
`disk_ref_bits`/`msg_ref_bits` bits for the references. -/
def instructionToBits (diskIndexBits diskRefBits msgRefBits : Nat)
    (inst : Instruction) : BitStr :=
  natBitsPadded diskIndexBits inst.diskIndex ++
    match inst.dataType with
    | .literal => [false, false] ++ bytesBits inst.data
    | .hashData => [false, true] ++ bytesBits inst.data
    | .diskReference =>
        [true, false] ++ natBitsPadded diskRefBits (natFromBytesBE inst.data)
    | .messageReference =>
        [true, true] ++ natBitsPadded msgRefBits (natFromBytesBE inst.data)

/-- `Message.write_bits_to_file` (`src/diskdelta/message.py` 102–123):
write the two header width fields (each `header_bits_size` bits wide),
then every instruction, through a fresh `BitWriter`, and close it.
Returns the bytes of the produced file. -/
def writeMessageBits (m : Message) : Option Bytes :=
  let chunks :=
    natBitsPadded m.headerBitsSize m.diskRefBitsSize ::
    natBitsPadded m.headerBitsSize m.msgRefBitsSize ::
    m.instructions.map
      (instructionToBits m.changedBlockIndexSize m.diskRefBitsSize
        m.msgRefBitsSize)
  (chunks.foldl (fun st bits => st.bind (writerWrite bits)) (some writerInit)).map
    writerClose

/-- The header width the decoder derives
(`src/diskdelta/message.py` 301): `get_index_bits_size(image_size - 1)`. -/
def decoderHeaderSize (imageSize : Nat) : Nat := getIndexBitsSize (imageSize - 1)

/-- The changed-block index width the decoder derives (line 303):
`get_index_bits_size(image_size - 1)`. -/
def decoderChangedBlockIndexSize (imageSize : Nat) : Nat :=
  getIndexBitsSize (imageSize - 1)

/-- Outcome of `get_data_by_type`: payload bytes with the reader state,
the `None` that makes the decode loop stop, or a propagating error. -/
inductive FieldResult where
  | got (data : Bytes) (rs : RState)
  | stop
  | fail (e : String)
deriving DecidableEq

/-- `MessageBuilder.get_data_by_type` (`src/diskdelta/message.py`
350–385): read the payload field of one instruction. `Literal` reads
`block_size * 8` bits; `Hash` reads `digest_size` bits (the store's
digest size field — the module reads `known_blocks_store.digest_size`,
whose value is the digest size the store was opened with); the
references read their width fields and re-encode the integer with
`to_bytes` of the minimum byte count. -/
def getDataByType (blockSize digestSize : Nat) (dataType : DataType)
    (diskRefBits msgRefBits : Nat) (rs : RState) : FieldResult :=
  match dataType with
  | .literal =>
      match readBits (blockSize * 8) rs with
      | .ok bits rs1 => .got (bitsToBytes bits) rs1
      | .eof => .stop
      | .truncated => .fail "Not enough bits to read"
  | .hashData =>
      match readBits digestSize rs with
      | .ok bits rs1 => .got (bitsToBytes bits) rs1
      | .eof => .stop
      | .truncated => .fail "Not enough bits to read"
  | .diskReference =>
      match readBits diskRefBits rs with
      | .ok bits rs1 =>
          let diskRefIndex := natFromBits bits
          let bytesNeeded := (getIndexBitsSize diskRefIndex + 7) / 8
          .got (natToBytesBE bytesNeeded diskRefIndex) rs1
      | .eof => .stop
      | .truncated => .fail "Not enough bits to read"
  | .messageReference =>
      match readBits msgRefBits rs with
      | .ok bits rs1 =>
          let msgRefIndex := natFromBits bits
          let bytesNeeded := (getIndexBitsSize msgRefIndex + 7) / 8
          .got (natToBytesBE bytesNeeded msgRefIndex) rs1
      | .eof => .stop
      | .truncated => .fail "Not enough bits to read"

/-- The `while True` body-instruction loop of `get_message_from_bits`
(`src/diskdelta/message.py` 327–346): read the changed-block index (a
`None` read halts cleanly), the two-bit tag, and the payload, appending
instructions. Fuel-driven; every iteration consumes at least one bit,
so the caller's fuel of `8 * file length + 1` can never run out. -/
def decodeLoop (blockSize digestSize changedIndexBits diskRefBits
    msgRefBits : Nat) :
    Nat → RState → List Instruction → Except String (List Instruction)
  | 0, _, _ => .error "out of fuel"
  | fuel + 1, rs, acc =>
      match readBits changedIndexBits rs with
      | .eof => .ok acc
      | .truncated => .error "Not enough bits to read"
      | .ok bits rs1 =>
          let diskIndex := natFromBits bits
          match readBits 2 rs1 with
          | .eof => .ok acc
          | .truncated => .error "Not enough bits to read"
          | .ok tagBits rs2 =>
              match DataType.ofTag (natFromBits tagBits) with
              | .error e => .error e
              | .ok dataType =>
                  match getDataByType blockSize digestSize dataType diskRefBits
                      msgRefBits rs2 with
                  | .fail e => .error e
                  | .stop => .ok acc
                  | .got data rs3 =>
                      decodeLoop blockSize digestSize changedIndexBits
                        diskRefBits msgRefBits fuel rs3
                        (acc ++ [⟨diskIndex, dataType, data⟩])

/-- `MessageBuilder.get_message_from_bits` (`src/diskdelta/message.py`
293–348): derive both undeclared widths from `image_size - 1`, read the
two header width fields (substituting 1 for a zero width), then run the
instruction loop over the remaining bits. -/
def getMessageFromBits (imageSize blockSize digestSize : Nat) (file : Bytes) :
    Except String Message :=
  let headerSize := decoderHeaderSize imageSize
  match readBits headerSize ⟨0, file⟩ with
  | .eof => .error "Failed to read header"
  | .truncated => .error "Not enough bits to read"
  | .ok bits1 rs1 =>
      let diskRefBits0 := natFromBits bits1
      let diskRefBits := if diskRefBits0 = 0 then 1 else diskRefBits0
      match readBits headerSize rs1 with
      | .eof => .error "Failed to read header"
      | .truncated => .error "Not enough bits to read"
      | .ok bits2 rs2 =>
          let msgRefBits0 := natFromBits bits2
          let msgRefBits := if msgRefBits0 = 0 then 1 else msgRefBits0
          match decodeLoop blockSize digestSize
              (decoderChangedBlockIndexSize imageSize) diskRefBits msgRefBits
              (8 * file.length + 1) rs2 [] with
          | .error e => .error e
          | .ok instructions =>
              .ok ⟨headerSize, decoderChangedBlockIndexSize imageSize,
                   diskRefBits, msgRefBits, instructions, []⟩

/-- `DiskDelta.get_literal_from_instruction`
(`src/diskdelta/__init__.py` 95–109): resolve an instruction to its
block literal, following `MessageReference` payloads recursively (fuel
bounds the recursion; the instruction count plus one suffices for
strictly backward references). A missing store digest or reference
target is `none` (`get_data_by_hash` raising / list index out of
range). -/
def getLiteralFromInstruction (blockSize : Nat) (store : Store)
    (initImage : Bytes) (message : Message) :
    Nat → Instruction → Option Bytes
  | 0, _ => none
  | fuel + 1, inst =>
      match inst.dataType with
      | .literal => some inst.data
      | .hashData => store.getDataByHash inst.data
      | .diskReference =>
          some (literalByIndex blockSize initImage (natFromBytesBE inst.data))
      | .messageReference =>
          match message.instructions.get? (natFromBytesBE inst.data) with
          | some refInst =>
              getLiteralFromInstruction blockSize store initImage message fuel
                refInst
          | none => none

/-- Overwrite `len data` bytes of `out` at byte offset `off` (the
`seek`/`write` pair of the applier; a seek past the end pads the gap
with zero bytes as POSIX does). -/
def writeAt (out : Bytes) (off : Nat) (data : Bytes) : Bytes :=
  out.take off ++ List.replicate (off - out.length) 0 ++ data ++
    out.drop (off + data.length)

/-- `DiskDelta.apply_message` (`src/diskdelta/__init__.py` 70–93): copy
the initial image, then overwrite block `disk_index` with the literal
each instruction resolves to, failing with the applier's
`raise ValueError("Data literal not found")` when resolution fails. -/
def applyMessage (blockSize : Nat) (store : Store) (initImage : Bytes)
    (message : Message) : Except String Bytes :=
  message.instructions.foldl
    (fun acc inst =>
      match acc with
      | .error e => .error e
      | .ok out =>
          match getLiteralFromInstruction blockSize store initImage message
              (message.instructions.length + 1) inst with
          | none => .error "Data literal not found"
          | some literal => .ok (writeAt out (inst.diskIndex * blockSize) literal))
    (.ok initImage)

/-- The full `src/diskdelta/` pipeline on one run: build the message
from the two images, serialise it to a bit file, decode that file in
the context of the initial image (as the repository's round-trip
self-check does), and apply the decoded message to the initial image. -/
def endToEnd (imageSize hashBits blockSize : Nat)
    (initImage targetImage : Bytes) (store : Store) : Except String Bytes :=
  match buildMessage imageSize hashBits blockSize initImage targetImage store with
  | .error e => .error e
  | .ok (message, store1) =>
      match writeMessageBits message with
      | none => .error "write failed"
      | some file =>
          match getMessageFromBits imageSize blockSize
              store1.digestSizeBits file with
          | .error e => .error e
          | .ok decoded => applyMessage blockSize store1 initImage decoded

end SD

namespace DD

/-!
Model of the `diskdelta/` package (the second draft in the
repository).
-/

/-- `BlockHashStore` of `diskdelta/block_hash_store.py`: opened with a
block size and a digest size in *bytes*; holds the in-memory digest
list and the backing file bytes. -/
structure Store where
  blockSize : Nat
  digestSize : Nat
  hashes : List Bytes
  file : Bytes
deriving DecidableEq

/-- `BlockHashStore.contains_hash` (`diskdelta/block_hash_store.py`
60–64). -/
def Store.containsHash (s : Store) (h : Bytes) : Bool :=
  decide (h ∈ s.hashes)

/-- `BlockHashStore.get_data_by_hash` (`diskdelta/block_hash_store.py`
47–58): locate the digest's record and read the `block_size` literal
bytes stored after the digest; `none` when the digest is absent
(`list.index` raising `ValueError`). -/
def Store.getDataByHash (s : Store) (h : Bytes) : Option Bytes :=
  (SD.idxOf h s.hashes).map fun index =>
    (s.file.drop (index * (s.blockSize + s.digestSize) + s.digestSize)).take
      s.blockSize

/-- A `MessageBlock` payload: raw bytes (`Literal`, `Hash`) or a plain
Python integer (`DiskIndex`, `Reference`), as this draft stores them. -/
inductive Payload where
  | bytesP (bs : Bytes)
  | natP (n : Nat)
deriving DecidableEq

/-- `MessageBlock` (`diskdelta/message.py` 17–36): target disk index,
digest, payload, kind. -/
structure MessageBlock where
  diskIndex : Nat
  hashVal : Bytes
  data : Payload
  dataType : DataType
deriving DecidableEq

/-- The message state this draft's `process_changed_block` mutates: the
block list plus the `hash_to_message_index` dictionary
(`diskdelta/message.py` 74–80). -/
structure Message where
  blocks : List MessageBlock
  hashToMessageIndex : List (Bytes × Nat)
deriving DecidableEq

/-- The empty message (`Message.__init__`). -/
def emptyMessage : Message := ⟨[], []⟩

/-- `get_indexes_by_hash` of `diskdelta/index_hash_mapper.py` (41–48):
this draft's reverse index maps a digest to the plain list of block
indexes carrying it. -/
def getIndexesByHash (m : List (Bytes × List Nat)) (h : Bytes) : List Nat :=
  match m.find? (fun kv => kv.1 = h) with
  | some kv => kv.2
  | none => []

/-- `MessageBuilder.process_changed_block` (`diskdelta/message.py`
310–354): the same four-branch priority chain as the other draft; here
the `Hash` branch stores `known_blocks.get_data_by_hash(hash)` — the
store's block *literal* — as the payload. The first branch does not
record the digest in `hash_to_message_index`; the other three do. -/
def processChangedBlock (blockSize : Nat) (initIdx : List (Bytes × List Nat))
    (targetImage : Bytes) (knownBlocks : Store) (index : Nat) (h : Bytes)
    (message : Message) : Option Message :=
  match mapLookup message.hashToMessageIndex h with
  | some msgIndex =>
      some { message with
               blocks := message.blocks ++
                 [⟨index, h, .natP msgIndex, .messageReference⟩] }
  | none =>
      if getIndexesByHash initIdx h ≠ [] then
        let blocks := message.blocks ++
          [⟨index, h, .natP ((getIndexesByHash initIdx h).getD 0 0),
            .diskReference⟩]
        some { blocks,
               hashToMessageIndex :=
                 mapInsert h (blocks.length - 1) message.hashToMessageIndex }
      else if knownBlocks.containsHash h then
        match knownBlocks.getDataByHash h with
        | some storeData =>
            let blocks := message.blocks ++
              [⟨index, h, .bytesP storeData, .hashData⟩]
            some { blocks,
                   hashToMessageIndex :=
                     mapInsert h (blocks.length - 1) message.hashToMessageIndex }
        | none => none
      else
        let blockLiteral := (targetImage.drop (index * blockSize)).take blockSize
        let blocks := message.blocks ++
          [⟨index, h, .bytesP blockLiteral, .literal⟩]
        some { blocks,
               hashToMessageIndex :=
                 mapInsert h (blocks.length - 1) message.hashToMessageIndex }

/-- The size-equality test of both coordinator drafts
(`diskdelta/__init__.py` 27–28 and `src/disk_delta.py` 198–199):
construction proceeds exactly when the two mappers loaded the same
number of blocks; otherwise `ValueError("Initial and target images are
not the same size")` is raised. -/
def sizeCheckPasses (blockSize : Nat) (initImage targetImage : Bytes) : Bool :=
  numReadBlocks blockSize initImage == numReadBlocks blockSize targetImage

end DD

/-- The priority rule of spec §4.5, stated from the spec's words: the
first applicable kind among MessageReference (digest already recorded
in `hash_to_message_index`), DiskReference (digest present in the
initial image's reverse index), Hash (digest present in the
KnownBlockStore), Literal (otherwise). -/
def specFirstApplicable (inMessage onDisk inStore : Bool) : DataType :=
  if inMessage then .messageReference
  else if onDisk then .diskReference
  else if inStore then .hashData
  else .literal

/-- Backward-reference property of a built message (spec §8 invariant
4): every `MessageReference` payload decodes to an index strictly below
the instruction's own position in the message. -/
def SD.backRefOk (m : SD.Message) : Prop :=
  ∀ p, p < m.instructions.length →
    (m.instructions.getD p ⟨0, .literal, []⟩).dataType = .messageReference →
    natFromBytesBE (m.instructions.getD p ⟨0, .literal, []⟩).data < p

/-- Invariant of the `hash_to_message_index` dictionary during the
build: every recorded message index points at an existing instruction. -/
def SD.mapOk (m : SD.Message) : Prop :=
  ∀ kv ∈ m.hashToMessageIndex, kv.2 < m.instructions.length

section BasicLemmas

set_option maxRecDepth 40000

/-- Unfolding `bitsToByte` on eight explicit bits recovers them. -/
theorem byteBits_bitsToByte (l : BitStr) (h : l.length = 8) :
    byteBits (bitsToByte l) = l := by
  match l, h with
  | [a, b, c, d, e, f, g, h0], _ => revert a b c d e f g h0; decide

/-- Packing at most eight bits and unpacking gives the bits, tail
padded with zeros. -/
theorem byteBits_bitsToByte_le (l : BitStr) (h : l.length ≤ 8) :
    byteBits (bitsToByte l) = l ++ List.replicate (8 - l.length) false := by
  have hlen : (l ++ List.replicate (8 - l.length) false).length = 8 := by
    simp; omega
  have hpack : bitsToByte l = bitsToByte (l ++ List.replicate (8 - l.length) false) := by
    unfold bitsToByte
    rw [hlen]
    simp
  rw [hpack, byteBits_bitsToByte _ hlen]

/-- Fuel invariance of the byte-packing worker. -/
theorem bitsToBytesGo_fuel (f1 f2 : Nat) (l : BitStr) (h1 : l.length ≤ f1)
    (h2 : l.length ≤ f2) : bitsToBytesGo f1 l = bitsToBytesGo f2 l := by
  induction f1 generalizing f2 l with
  | zero =>
      have : l = [] := List.length_eq_zero.mp (by omega)
      subst this
      cases f2 <;> rfl
  | succ f ih =>
      cases l with
      | nil => cases f2 <;> rfl
      | cons x xs =>
          cases f2 with
          | zero => simp at h2
          | succ g =>
              show bitsToByte _ :: bitsToBytesGo f _ = bitsToByte _ :: bitsToBytesGo g _
              congr 1
              simp only [List.length_cons] at h1 h2
              exact ih g ((x :: xs).drop 8) (by simp; omega) (by simp; omega)

/-- One chunk step of `bitsToBytes`. -/
theorem bitsToBytes_cons (x : Bool) (xs : BitStr) :
    bitsToBytes (x :: xs) =
      bitsToByte ((x :: xs).take 8) :: bitsToBytes ((x :: xs).drop 8) := by
  show bitsToBytesGo (x :: xs).length (x :: xs) = _
  cases h : (x :: xs).length with
  | zero => simp at h
  | succ n =>
      show bitsToByte _ :: bitsToBytesGo n ((x :: xs).drop 8) = _
      congr 1
      exact bitsToBytesGo_fuel n ((x :: xs).drop 8).length ((x :: xs).drop 8)
        (by simp at h ⊢; omega) le_rfl

/-- The packed file holds `⌈bits/8⌉` bytes. -/
theorem bitsToBytes_length (l : BitStr) :
    (bitsToBytes l).length = (l.length + 7) / 8 := by
  match l with
  | [] => rfl
  | x :: xs =>
      rw [bitsToBytes_cons]
      have ih := bitsToBytes_length ((x :: xs).drop 8)
      simp only [List.length_cons, List.length_drop] at ih ⊢
      rw [ih]
      omega
termination_by l.length
decreasing_by simp; omega

end BasicLemmas

section BitStreamLemmas

set_option maxRecDepth 40000

/-- Unpacking bytes yields eight bits per byte. -/
theorem bytesBits_length (bs : Bytes) : (bytesBits bs).length = 8 * bs.length := by
  induction bs with
  | nil => rfl
  | cons b t ih =>
      have hb : (byteBits b).length = 8 := rfl
      simp only [bytesBits, List.flatMap_cons, List.length_append, List.length_cons] at ih ⊢
      rw [hb, ih]
      omega

/-- `bytesBits` distributes over append. -/
theorem bytesBits_append (a b : Bytes) :
    bytesBits (a ++ b) = bytesBits a ++ bytesBits b := by
  simp [bytesBits]

/-- Unpacking a byte-level prefix is a bit-level prefix. -/
theorem bytesBits_take (bs : Bytes) (k : Nat) :
    bytesBits (bs.take k) = (bytesBits bs).take (8 * k) := by
  induction bs generalizing k with
  | nil => simp [bytesBits]
  | cons b t ih =>
      cases k with
      | zero => simp [bytesBits]
      | succ j =>
          have h1 : (b :: t).take (j + 1) = b :: t.take j := rfl
          have h2 : ∀ l : List Nat, bytesBits (b :: l) = byteBits b ++ bytesBits l :=
            fun l => by simp [bytesBits]
          rw [h1, h2, h2, List.take_append_eq_append_take]
          have hb : (byteBits b).length = 8 := rfl
          have e1 : (byteBits b).take (8 * (j + 1)) = byteBits b :=
            List.take_of_length_le (by rw [hb]; omega)
          rw [e1, hb]
          have e2 : 8 * (j + 1) - 8 = 8 * j := by omega
          rw [e2, ih]

/-- Unpacking a packed bit string returns it, with the zero padding of
the final partial byte appended. -/
theorem bytesBits_bitsToBytes (l : BitStr) :
    bytesBits (bitsToBytes l) =
      l ++ List.replicate ((8 - l.length % 8) % 8) false := by
  match l with
  | [] => rfl
  | x :: xs =>
      rw [bitsToBytes_cons]
      have hcons : bytesBits (bitsToByte ((x :: xs).take 8) :: bitsToBytes ((x :: xs).drop 8)) =
          byteBits (bitsToByte ((x :: xs).take 8)) ++ bytesBits (bitsToBytes ((x :: xs).drop 8)) := by
        simp [bytesBits]
      rw [hcons]
      by_cases h8 : (x :: xs).length ≤ 8
      · have hdrop : (x :: xs).drop 8 = [] := List.drop_eq_nil_of_le h8
        have htake : (x :: xs).take 8 = x :: xs := List.take_of_length_le h8
        rw [hdrop, htake, byteBits_bitsToByte_le _ h8]
        show (x :: xs) ++ _ ++ [] = _
        rw [List.append_nil]
        have hrep : 8 - (x :: xs).length = (8 - (x :: xs).length % 8) % 8 := by
          have : 0 < (x :: xs).length := by simp
          omega
        rw [hrep]
      · have htake : ((x :: xs).take 8).length = 8 :=
          List.length_take_of_le (by omega)
        rw [byteBits_bitsToByte _ htake,
            bytesBits_bitsToBytes ((x :: xs).drop 8)]
        rw [← List.append_assoc, List.take_append_drop]
        have hrep : (8 - ((x :: xs).drop 8).length % 8) % 8 =
            (8 - (x :: xs).length % 8) % 8 := by
          rw [List.length_drop]
          omega
        rw [hrep]
termination_by l.length
decreasing_by simp; omega

/-- Outcome of `BitReader.read` from a byte-aligned state with enough
input: the first `n` bits of the stream, leaving the cursor after
them. -/
theorem readBits_ok_aligned (n : Nat) (bs : Bytes)
    (h : n / 8 < bs.length ∨ (n / 8 = bs.length ∧ n % 8 = 0)) :
    SD.readBits n ⟨0, bs⟩ =
      .ok ((bytesBits bs).take n) ⟨n % 8, bs.drop (n / 8)⟩ := by
  have hle : ¬ (n / 8 > bs.length) := by omega
  simp only [SD.readBits, gt_iff_lt, Nat.lt_irrefl, if_false, hle]
  simp only [List.nil_append]
  by_cases hrem : n % 8 = 0
  · simp only [hrem, if_true]
    have hn : 8 * (n / 8) = n := by omega
    rw [bytesBits_take, hn]
  · simp only [hrem, if_false]
    have hlt : n / 8 < bs.length := by
      rcases h with h | ⟨_, h2⟩
      · exact h
      · exact absurd h2 hrem
    have hd : bs.drop (n / 8) ≠ [] := by
      intro hnil
      have := List.drop_eq_nil_iff.mp hnil
      omega
    cases heq : bs.drop (n / 8) with
    | nil => exact absurd heq hd
    | cons b t =>
        have hsplit : bytesBits bs =
            bytesBits (bs.take (n / 8)) ++ (byteBits b ++ bytesBits t) := by
          conv_lhs => rw [← List.take_append_drop (n / 8) bs]
          rw [bytesBits_append, heq]
          simp [bytesBits]
        have hlen : (bytesBits (bs.take (n / 8))).length = 8 * (n / 8) := by
          rw [bytesBits_length, List.length_take_of_le (by omega)]
        have hbits : (bytesBits bs).take n =
            bytesBits (bs.take (n / 8)) ++ (byteBits b).take (n % 8) := by
          have hA : (bytesBits (bs.take (n / 8))).length ≤ n := by
            rw [hlen]; omega
          have hmod : n - 8 * (n / 8) = n % 8 := by omega
          have hB : n % 8 ≤ (byteBits b).length := by
            show n % 8 ≤ 8; omega
          calc (bytesBits bs).take n
              = (bytesBits (bs.take (n / 8)) ++ (byteBits b ++ bytesBits t)).take n := by
                rw [← hsplit]
            _ = (bytesBits (bs.take (n / 8))).take n ++
                  (byteBits b ++ bytesBits t).take
                    (n - (bytesBits (bs.take (n / 8))).length) :=
                List.take_append_eq_append_take
            _ = bytesBits (bs.take (n / 8)) ++ (byteBits b).take (n % 8) := by
                rw [List.take_of_length_le hA, hlen, hmod,
                    List.take_append_of_le_length hB]
        show SD.ReadResult.ok (bytesBits (bs.take (n / 8)) ++ (byteBits b).take (n % 8))
            ⟨n % 8, b :: t⟩ = SD.ReadResult.ok ((bytesBits bs).take n) ⟨n % 8, b :: t⟩
        rw [hbits]

end BitStreamLemmas

section WriterLemmas

set_option maxRecDepth 40000

/-- Packing distributes over append at byte boundaries. -/
theorem bitsToBytes_append_of_mod (a b : BitStr) (h : a.length % 8 = 0) :
    bitsToBytes (a ++ b) = bitsToBytes a ++ bitsToBytes b := by
  match a with
  | [] => simp [show bitsToBytes ([] : BitStr) = [] from rfl]
  | x :: xs =>
      have hlen : 8 ≤ (x :: xs).length := by
        have : 0 < (x :: xs).length := by simp
        omega
      have e : (x :: xs) ++ b = x :: (xs ++ b) := rfl
      rw [bitsToBytes_cons x xs, e, bitsToBytes_cons x (xs ++ b), ← e]
      rw [List.take_append_of_le_length hlen,
          List.drop_append_of_le_length hlen]
      rw [bitsToBytes_append_of_mod ((x :: xs).drop 8) b
            (by rw [List.length_drop]; omega)]
      rfl
termination_by a.length
decreasing_by simp; omega

/-- Packing up to eight bits yields a single byte. -/
theorem bitsToBytes_small (y : BitStr) (h0 : y ≠ []) (h8 : y.length ≤ 8) :
    bitsToBytes y = [bitsToByte y] := by
  match y with
  | x :: xs =>
      rw [bitsToBytes_cons, List.take_of_length_le h8,
          List.drop_eq_nil_of_le h8]
      rfl

/-- Evaluating `BitWriter.write` on a fresh writer: the reduced control
flow of the source for a zero bit index. -/
theorem writerWrite_fresh (x : BitStr) :
    SD.writerWrite x SD.writerInit =
      (if (x.drop (8 * (x.length / 8))).length = 0 then
         some ⟨bitsToBytes (x.take (8 * (x.length / 8))), 0, 0⟩
       else
         some ⟨bitsToBytes (x.take (8 * (x.length / 8))),
               (x.drop (8 * (x.length / 8))).length,
               bitsToByte (x.drop (8 * (x.length / 8)))⟩) := rfl

/-- A single write on a fresh writer followed by close produces exactly
the zero-padded packing of the written bits. -/
theorem writerWriteClose (x : BitStr) :
    ∃ w, SD.writerWrite x SD.writerInit = some w ∧
      SD.writerClose w = bitsToBytes x := by
  rw [writerWrite_fresh]
  by_cases hz : (x.drop (8 * (x.length / 8))).length = 0
  · refine ⟨_, by rw [if_pos hz], ?_⟩
    have hx : x.take (8 * (x.length / 8)) = x := by
      apply List.take_of_length_le
      rw [List.length_drop] at hz
      omega
    simp [SD.writerClose, hx]
  · refine ⟨_, by rw [if_neg hz], ?_⟩
    have hpos : 0 < (x.drop (8 * (x.length / 8))).length := Nat.pos_of_ne_zero hz
    show (if 0 < (x.drop (8 * (x.length / 8))).length then _ else _) = _
    rw [if_pos hpos]
    have hsplit : bitsToBytes x =
        bitsToBytes (x.take (8 * (x.length / 8))) ++
          bitsToBytes (x.drop (8 * (x.length / 8))) := by
      conv_lhs => rw [← List.take_append_drop (8 * (x.length / 8)) x]
      apply bitsToBytes_append_of_mod
      rw [List.length_take_of_le (by omega)]
      omega
    rw [hsplit, bitsToBytes_small (x.drop (8 * (x.length / 8)))
          (by intro hnil; rw [hnil] at hpos; simp at hpos)
          (by rw [List.length_drop]; omega)]

end WriterLemmas

section ClaimC4

set_option maxRecDepth 40000

/-- Unfolded control flow of `BitReader.read` from a byte-aligned
state. -/
theorem readBits_aligned_unfold (n : Nat) (bs : Bytes) :
    SD.readBits n ⟨0, bs⟩ =
      (if n / 8 > bs.length then .eof
       else if n % 8 = 0 then
         .ok (bytesBits (bs.take (n / 8))) ⟨0, bs.drop (n / 8)⟩
       else
         match bs.drop (n / 8) with
         | [] => .truncated
         | b :: _ =>
             .ok (bytesBits (bs.take (n / 8)) ++ (byteBits b).take (n % 8))
               ⟨n % 8, bs.drop (n / 8)⟩) := rfl

/-- C4 (counterexample): with one whole byte (eight bits) remaining,
`read(16)` returns the end-of-input sentinel rather than a Truncated
error, so `read(n)` does *not* signal end of input only when strictly
zero bits remain. -/
theorem c4_short_read_eof_counterexample :
    SD.readBits 16 ⟨0, [171]⟩ = .eof ∧ SD.remainingBits ⟨0, [171]⟩ = 8 :=
  ⟨rfl, rfl⟩

/-- C4 (amended): from a byte-aligned state, `read(n)` signals
end-of-input exactly when the whole-byte part `⌊n/8⌋` of the request
exceeds the bytes remaining (even when up to seven bits plus the
discarded whole bytes remain), and raises the Truncated error exactly
when the whole bytes are just satisfied but the trailing `n mod 8` bits
find no further byte — including at clean end of input with
`0 < n < 8`; in every other case the read succeeds. -/
theorem c4_read_outcome_characterization (n : Nat) (bs : Bytes) :
    (SD.readBits n ⟨0, bs⟩ = .eof ↔ bs.length < n / 8) ∧
    (SD.readBits n ⟨0, bs⟩ = .truncated ↔ n / 8 = bs.length ∧ n % 8 ≠ 0) := by
  rw [readBits_aligned_unfold]
  by_cases h1 : n / 8 > bs.length
  · rw [if_pos h1]
    constructor
    · simp; omega
    · constructor
      · intro hc; cases hc
      · intro ⟨he, _⟩; omega
  · rw [if_neg h1]
    by_cases h2 : n % 8 = 0
    · rw [if_pos h2]
      constructor
      · constructor
        · intro hc; cases hc
        · intro hlt; omega
      · constructor
        · intro hc; cases hc
        · intro ⟨_, hne⟩; exact absurd h2 hne
    · rw [if_neg h2]
      cases heq : bs.drop (n / 8) with
      | nil =>
          have hge : bs.length ≤ n / 8 := by
            have := List.drop_eq_nil_iff.mp heq
            omega
          constructor
          · constructor
            · intro hc; cases hc
            · intro hlt; omega
          · constructor
            · intro _; exact ⟨by omega, h2⟩
            · intro _; rfl
      | cons b t =>
          have hlt : n / 8 < bs.length := by
            by_contra hge
            have : bs.drop (n / 8) = [] := List.drop_eq_nil_of_le (by omega)
            rw [this] at heq; cases heq
          constructor
          · constructor
            · intro hc; cases hc
            · intro hl; omega
          · constructor
            · intro hc; cases hc
            · intro ⟨he, _⟩; omega

end ClaimC4

section ClaimC7

set_option maxRecDepth 40000

/-- C7: bit-stream round-trip. Writing any bit string `x` on a fresh
`BitWriter` and closing produces a file of exactly `⌈|x|/8⌉` bytes
whose bits are `x` followed by the zero bits padding the trailing
partial byte (an empty `x` gives a zero-byte file, since
`⌈0/8⌉ = 0`), and reading `|x|` bits back from a fresh `BitReader`
over that file returns exactly `x`. -/
theorem c7_bit_stream_round_trip (x : BitStr) :
    ∃ w, SD.writerWrite x SD.writerInit = some w ∧
      (SD.writerClose w).length = (x.length + 7) / 8 ∧
      bytesBits (SD.writerClose w) =
        x ++ List.replicate ((8 - x.length % 8) % 8) false ∧
      (SD.readBits x.length ⟨0, SD.writerClose w⟩).bits? = some x := by
  obtain ⟨w, hw, hclose⟩ := writerWriteClose x
  refine ⟨w, hw, ?_, ?_, ?_⟩
  · rw [hclose, bitsToBytes_length]
  · rw [hclose, bytesBits_bitsToBytes]
  · rw [hclose]
    have hlen : (bitsToBytes x).length = (x.length + 7) / 8 := bitsToBytes_length x
    have h : x.length / 8 < (bitsToBytes x).length ∨
        (x.length / 8 = (bitsToBytes x).length ∧ x.length % 8 = 0) := by
      rw [hlen]
      by_cases hm : x.length % 8 = 0
      · right; exact ⟨by omega, hm⟩
      · left; omega
    rw [readBits_ok_aligned x.length (bitsToBytes x) h]
    show some _ = some x
    congr 1
    rw [bytesBits_bitsToBytes, List.take_append_eq_append_take]
    rw [List.take_of_length_le le_rfl, Nat.sub_self, List.take_zero,
        List.append_nil]

end ClaimC7

section ConcreteClaims

set_option maxRecDepth 100000

/-- C1: end-to-end round-trip fidelity fails on the code. Failing
input: block size 1, digest size 8 bits, images `I = 00 00`,
`T = 01 00` (so `N = 2` blocks), empty known-block store. The builder
produces the single instruction `(0, Literal, 01)` with
`header_bits = bits(2) = 2`, the serialised delta is the two bytes
`50 02`; the decoder derives `header_bits = bits(1) = 1`, misparses the
first instruction as `(0, DiskReference, 0)` and then dies in the bit
reader (`ValueError: Not enough bits to read`), so applying
`decode(encode(I, T))` to `I` does not reconstruct `T`. -/
theorem c1_round_trip_fails :
    SD.buildMessage 2 8 1 [0, 0] [1, 0] ⟨1, 8, [], []⟩ =
      .ok (⟨2, 1, 1, 1, [⟨0, .literal, [1]⟩], [([75], 0)]⟩,
           ⟨1, 8, [[75]], [75, 1]⟩) ∧
    hasherHash 8 [1] = [75] ∧
    SD.endToEnd 2 8 1 [0, 0] [1, 0] ⟨1, 8, [], []⟩ =
      .error "Not enough bits to read" :=
  ⟨rfl, rfl, rfl⟩

/-- C2: the Hash-kind payload is not the digest in either draft. With
block size 1, digest size 8 bits, and a store that already holds the
digest of target block `42` (absent from the message and from the
initial image `00`), the `src/diskdelta/` builder crashes with
`KeyError` on the dictionary subscript in its Hash branch, and the
`diskdelta/` builder emits a Hash instruction whose payload is the
store-lookup result — the block literal `42` — rather than the digest. -/
theorem c2_hash_payload_not_digest :
    SD.processChangedBlock 1 (SD.mapperLoad 8 1 [0]) [0x42]
        ⟨1, 8, [hasherHash 8 [0x42]], hasherHash 8 [0x42] ++ [0x42]⟩ 0
        (hasherHash 8 [0x42]) SD.emptyMessage = .error "KeyError" ∧
    DD.processChangedBlock 1 [] [0x42]
        ⟨1, 32, [Sha256.sha256 [0x42]], Sha256.sha256 [0x42] ++ [0x42]⟩ 0
        (Sha256.sha256 [0x42]) DD.emptyMessage =
      some ⟨[⟨0, Sha256.sha256 [0x42], .bytesP [0x42], .hashData⟩],
            [(Sha256.sha256 [0x42], 0)]⟩ ∧
    DD.Payload.bytesP [0x42] ≠ DD.Payload.bytesP (Sha256.sha256 [0x42]) :=
  ⟨rfl, rfl, by decide⟩

/-- C3: serializer/deserializer width asymmetry at a power of two. For
`N = 2` the encoder writes each header field in
`get_index_bits_size(2) = 2` bits while the decoder reads
`get_index_bits_size(2 - 1) = 1` bit per field, so the widths the
decoder derives do not equal the widths the encoder used (the
changed-block index width, `bits(N−1)` on both sides, does agree). -/
theorem c3_header_width_asymmetry :
    SD.encoderHeaderBits 2 = 2 ∧ SD.decoderHeaderSize 2 = 1 ∧
    SD.decoderChangedBlockIndexSize 2 = 1 ∧
    SD.encoderHeaderBits 2 ≠ SD.decoderHeaderSize 2 :=
  ⟨rfl, rfl, rfl, by decide⟩

end ConcreteClaims

section ClaimC9

set_option maxRecDepth 40000

/-- Fuel invariance of the block-counting loop. -/
theorem numReadBlocksGo_fuel (f1 f2 blockSize : Nat) (l : Bytes)
    (h1 : l.length ≤ f1) (h2 : l.length ≤ f2) :
    numReadBlocksGo f1 blockSize l = numReadBlocksGo f2 blockSize l := by
  induction f1 generalizing f2 l with
  | zero =>
      have : l = [] := List.length_eq_zero.mp (by omega)
      subst this
      cases f2 <;> rfl
  | succ f ih =>
      cases l with
      | nil => cases f2 <;> rfl
      | cons x xs =>
          cases f2 with
          | zero => simp at h2
          | succ g =>
              show (if blockSize = 0 then 0 else 1 + numReadBlocksGo f blockSize _) =
                   (if blockSize = 0 then 0 else 1 + numReadBlocksGo g blockSize _)
              by_cases hb : blockSize = 0
              · rw [if_pos hb, if_pos hb]
              · rw [if_neg hb, if_neg hb]
                simp only [List.length_cons] at h1 h2
                rw [ih g ((x :: xs).drop blockSize) (by simp; omega) (by simp; omega)]

/-- One step of the block-counting loop. -/
theorem numReadBlocks_cons (blockSize : Nat) (x : Nat) (xs : Bytes)
    (hb : blockSize ≠ 0) :
    numReadBlocks blockSize (x :: xs) =
      1 + numReadBlocks blockSize ((x :: xs).drop blockSize) := by
  show numReadBlocksGo (x :: xs).length blockSize (x :: xs) = _
  cases hlen : (x :: xs).length with
  | zero => simp at hlen
  | succ n =>
      show (if blockSize = 0 then 0 else 1 + numReadBlocksGo n blockSize _) = _
      rw [if_neg hb]
      congr 1
      exact numReadBlocksGo_fuel n ((x :: xs).drop blockSize).length blockSize _
        (by simp at hlen ⊢; omega) le_rfl

/-- The sequential read loop counts `⌈length/B⌉` blocks. -/
theorem numReadBlocks_eq_ceil (blockSize : Nat) (l : Bytes)
    (hb : 1 ≤ blockSize) :
    numReadBlocks blockSize l = (l.length + blockSize - 1) / blockSize := by
  match l with
  | [] =>
      show 0 = (0 + blockSize - 1) / blockSize
      rw [Nat.zero_add, Nat.div_eq_of_lt (by omega)]
  | x :: xs =>
      rw [numReadBlocks_cons blockSize x xs (by omega)]
      rw [numReadBlocks_eq_ceil blockSize ((x :: xs).drop blockSize) hb]
      rw [List.length_drop]
      by_cases hge : blockSize ≤ (x :: xs).length
      · have e : (x :: xs).length - blockSize + blockSize - 1 + blockSize =
            (x :: xs).length + blockSize - 1 := by omega
        rw [Nat.add_comm 1 _, ← Nat.add_div_right _ (by omega : 0 < blockSize), e]
      · have h1 : (x :: xs).length - blockSize = 0 := by omega
        rw [h1, Nat.zero_add, Nat.div_eq_of_lt (by omega)]
        have hpos : 0 < (x :: xs).length := by simp
        have h2 : ((x :: xs).length + blockSize - 1) / blockSize = 1 :=
          Nat.div_eq_of_lt_le
            (by omega : 1 * blockSize ≤ (x :: xs).length + blockSize - 1)
            (by omega : (x :: xs).length + blockSize - 1 < (1 + 1) * blockSize)
        rw [h2]
termination_by l.length
decreasing_by simp; omega

/-- C9 (counterexample): with block size 4, a 5-byte initial image and
a 6-byte target image differ in byte length (and neither is a multiple
of 4), yet the coordinator's size check passes — both mappers load
`⌈5/4⌉ = ⌈6/4⌉ = 2` blocks — so construction proceeds instead of
failing with SizeMismatch. -/
theorem c9_size_check_counterexample :
    DD.sizeCheckPasses 4 [1, 2, 3, 4, 5] [1, 2, 3, 4, 5, 6] = true ∧
    ([1, 2, 3, 4, 5] : Bytes).length ≠ ([1, 2, 3, 4, 5, 6] : Bytes).length :=
  ⟨rfl, by decide⟩

/-- C9 (amended): for every positive block size the coordinator fails
with SizeMismatch iff the two images' ceiling block counts
`⌈|I|/B⌉` and `⌈|T|/B⌉` differ; equal-count images proceed even when
their byte lengths differ or are not multiples of `B`. -/
theorem c9_size_check_characterization (blockSize : Nat) (initImage targetImage : Bytes)
    (hb : 1 ≤ blockSize) :
    DD.sizeCheckPasses blockSize initImage targetImage = true ↔
      (initImage.length + blockSize - 1) / blockSize =
        (targetImage.length + blockSize - 1) / blockSize := by
  unfold DD.sizeCheckPasses
  rw [beq_iff_eq, numReadBlocks_eq_ceil blockSize initImage hb,
      numReadBlocks_eq_ceil blockSize targetImage hb]

/-- C9 (witness): the characterization applied at block size 4 and two
concrete images. -/
theorem c9_size_check_witness :
    DD.sizeCheckPasses 4 [1, 2, 3, 4, 5] [9, 9, 9, 9, 9, 9] = true ↔
      (5 + 4 - 1) / 4 = (6 + 4 - 1) / 4 :=
  c9_size_check_characterization 4 [1, 2, 3, 4, 5] [9, 9, 9, 9, 9, 9]
    (by norm_num)

end ClaimC9

section ClaimC10

/-- `Instruction.__eq__` decides structural equality of the three
fields. -/
theorem instructionEq_iff (i1 i2 : SD.Instruction) :
    SD.instructionEq i1 i2 = true ↔ i1 = i2 := by
  cases i1 with
  | mk d1 t1 b1 =>
      cases i2 with
      | mk d2 t2 b2 =>
          simp [SD.instructionEq, SD.Instruction.mk.injEq, Bool.and_eq_true,
            beq_iff_eq, decide_eq_true_eq, and_assoc]

/-- The length-and-zip comparison of two instruction lists decides list
equality. -/
theorem instructionListEq_iff (l1 l2 : List SD.Instruction) :
    ((l1.length == l2.length) &&
      (l1.zip l2).all (fun p => SD.instructionEq p.1 p.2)) = true ↔ l1 = l2 := by
  induction l1 generalizing l2 with
  | nil =>
      cases l2 with
      | nil => simp
      | cons b u => simp
  | cons a t ih =>
      cases l2 with
      | nil => simp
      | cons b u =>
          have := ih u
          simp only [List.length_cons, List.zip_cons_cons, List.all_cons,
            Bool.and_eq_true, beq_iff_eq, Nat.succ_inj, instructionEq_iff,
            List.cons.injEq] at this ⊢
          constructor
          · intro ⟨hlen, hab, hall⟩
            exact ⟨hab, this.mp ⟨hlen, hall⟩⟩
          · intro ⟨hab, htu⟩
            have := this.mpr htu
            exact ⟨this.1, hab, this.2⟩

/-- C10: `Message.__eq__` compares only the instruction lists
element-wise; the four header width quantities are not consulted, so
two messages (such as the built and the re-decoded one in the
round-trip self-check) compare equal exactly when their instruction
lists agree, whatever their width fields hold. -/
theorem c10_message_eq_ignores_widths (m1 m2 : SD.Message) :
    SD.messageEq m1 m2 = true ↔ m1.instructions = m2.instructions := by
  unfold SD.messageEq
  exact instructionListEq_iff m1.instructions m2.instructions

end ClaimC10

section ClaimC8

/-- C8: `BlockHashStore.add` is idempotent. For a digest of the
validated length `⌈D/8⌉` and a literal of length `B`: adding twice in a
row equals adding once; a first add of an absent digest appends the
digest to the in-memory list and grows the file by exactly
`⌈D/8⌉ + B` bytes; adding a digest already present is a no-op on list
and file alike. -/
theorem c8_store_add_idempotent (s : SD.Store) (d l : Bytes)
    (hd : d.length = s.digestBytes) (hl : l.length = s.blockSize) :
    ((s.add d l).bind fun s1 => s1.add d l) = s.add d l ∧
    (d ∉ s.hashes →
      (s.add d l).map (fun s1 => (s1.hashes, s1.file.length)) =
        .ok (s.hashes ++ [d], s.file.length + s.digestBytes + s.blockSize)) ∧
    (d ∈ s.hashes → s.add d l = .ok s) := by
  by_cases hmem : d ∈ s.hashes
  · have hadd : s.add d l = .ok s := by
      unfold SD.Store.add
      rw [if_neg (by omega : ¬ d.length ≠ s.digestBytes), if_pos hmem]
    refine ⟨?_, fun hno => absurd hmem hno, fun _ => hadd⟩
    rw [hadd]
    show s.add d l = .ok s
    exact hadd
  · have hadd : s.add d l =
        .ok ⟨s.blockSize, s.digestSizeBits, s.hashes ++ [d], s.file ++ d ++ l⟩ := by
      unfold SD.Store.add
      rw [if_neg (by omega : ¬ d.length ≠ s.digestBytes), if_neg hmem]
    refine ⟨?_, fun _ => ?_, fun hyes => absurd hyes hmem⟩
    · rw [hadd]
      show SD.Store.add ⟨s.blockSize, s.digestSizeBits, s.hashes ++ [d], s.file ++ d ++ l⟩ d l = _
      unfold SD.Store.add
      rw [if_neg ?hlen, if_pos (by simp)]
      case hlen =>
        show ¬ d.length ≠ (s.digestSizeBits + 7) / 8
        have : s.digestBytes = (s.digestSizeBits + 7) / 8 := rfl
        omega
    · rw [hadd]
      show Except.ok (s.hashes ++ [d], (s.file ++ d ++ l).length) = _
      rw [List.append_assoc, List.length_append, List.length_append]
      rw [hd, hl, Nat.add_assoc]

/-- C8 (witness): the idempotence theorem applied to a concrete empty
store with a one-byte digest and literal. -/
theorem c8_store_add_witness :
    ((SD.Store.add ⟨1, 8, [], []⟩ [7] [9]).bind fun s1 => s1.add [7] [9]) =
      SD.Store.add ⟨1, 8, [], []⟩ [7] [9] ∧
    (SD.Store.add ⟨1, 8, [], []⟩ [7] [9]).map
        (fun s1 => (s1.hashes, s1.file.length)) = .ok ([[7]], 2) := by
  have h := c8_store_add_idempotent ⟨1, 8, [], []⟩ [7] [9] rfl rfl
  exact ⟨h.1, h.2.1 (by simp)⟩

end ClaimC8

section ClaimC5

/-- `list.index` succeeds on a member. -/
theorem idxOf_isSome (h : Bytes) (l : List Bytes) (hmem : h ∈ l) :
    (SD.idxOf h l).isSome = true := by
  induction l with
  | nil => cases hmem
  | cons x xs ih =>
      unfold SD.idxOf
      by_cases hx : x = h
      · rw [if_pos hx]; rfl
      · rw [if_neg hx]
        rcases List.mem_cons.mp hmem with he | hxs
        · exact absurd he.symm hx
        · cases hi : SD.idxOf h xs with
          | none =>
              have := ih hxs
              rw [hi] at this
              cases this
          | some i => rfl

/-- C5: classification priority. For every changed block the
`diskdelta/` builder emits exactly one instruction, and its kind is the
first applicable of MessageReference (digest recorded in
`hash_to_message_index`), DiskReference (digest present in the initial
image's reverse index), Hash (digest present in the KnownBlockStore),
Literal (otherwise) — the priority rule of spec §4.5, stated by the
separate `specFirstApplicable` predicate. -/
theorem c5_classification_priority (blockSize : Nat)
    (initIdx : List (Bytes × List Nat)) (targetImage : Bytes)
    (store : DD.Store) (index : Nat) (h : Bytes) (message : DD.Message) :
    ∃ m' b, DD.processChangedBlock blockSize initIdx targetImage store index h
        message = some m' ∧
      m'.blocks.getLast? = some b ∧
      b.dataType = specFirstApplicable
        (mapLookup message.hashToMessageIndex h).isSome
        (!(DD.getIndexesByHash initIdx h).isEmpty)
        (store.containsHash h) := by
  unfold DD.processChangedBlock
  cases hl : mapLookup message.hashToMessageIndex h with
  | some mi =>
      refine ⟨_, _, rfl, List.getLast?_concat _, ?_⟩
      simp [specFirstApplicable, hl]
  | none =>
      by_cases hidx : DD.getIndexesByHash initIdx h ≠ []
      · rw [if_pos hidx]
        refine ⟨_, _, rfl, List.getLast?_concat _, ?_⟩
        cases he : DD.getIndexesByHash initIdx h with
        | nil => exact absurd he hidx
        | cons i rest => simp [specFirstApplicable, hl, he]
      · rw [if_neg hidx]
        have hemp : DD.getIndexesByHash initIdx h = [] := by
          by_contra hc; exact hidx hc
        by_cases hst : store.containsHash h = true
        · rw [if_pos hst]
          have hmem : h ∈ store.hashes := by
            have := hst
            unfold DD.Store.containsHash at this
            exact of_decide_eq_true this
          cases hopt : store.getDataByHash h with
          | none =>
              have hsome0 := idxOf_isSome h store.hashes hmem
              unfold DD.Store.getDataByHash at hopt
              cases hi : SD.idxOf h store.hashes with
              | none => rw [hi] at hsome0; cases hsome0
              | some i => rw [hi] at hopt; simp at hopt
          | some lit =>
              refine ⟨_, _, rfl, List.getLast?_concat _, ?_⟩
              simp [specFirstApplicable, hl, hemp, hst]
        · rw [if_neg hst]
          refine ⟨_, _, rfl, List.getLast?_concat _, ?_⟩
          simp only [specFirstApplicable, hl, hemp, Option.isSome_none,
            List.isEmpty_nil, Bool.not_true, Bool.false_eq_true, if_false]
          rw [if_neg hst]

/-- C5 (witness): the priority theorem applied to a concrete changed
block that none of the three reference sources knows, yielding a
Literal instruction. -/
theorem c5_classification_witness :
    ∃ m' b, DD.processChangedBlock 1 [] [7] ⟨1, 1, [], []⟩ 0 [9]
        DD.emptyMessage = some m' ∧
      m'.blocks.getLast? = some b ∧
      b.dataType = specFirstApplicable
        (mapLookup DD.emptyMessage.hashToMessageIndex [9]).isSome
        (!(DD.getIndexesByHash [] [9]).isEmpty)
        (DD.Store.containsHash ⟨1, 1, [], []⟩ [9]) :=
  c5_classification_priority 1 [] [7] ⟨1, 1, [], []⟩ 0 [9] DD.emptyMessage

end ClaimC5


section ClaimC6

set_option maxRecDepth 100000

/-- `int.from_bytes` of a byte string with one byte appended. -/
theorem natFromBytesBE_concat (l : Bytes) (b : Nat) :
    natFromBytesBE (l ++ [b]) = 256 * natFromBytesBE l + b := by
  simp [natFromBytesBE, List.foldl_append]

/-- `int.from_bytes(v.to_bytes(len))` recovers `v` when it fits. -/
theorem natFromBytesBE_natToBytesBE (len v : Nat) (h : v < 256 ^ len) :
    natFromBytesBE (natToBytesBE len v) = v := by
  induction len generalizing v with
  | zero =>
      have : v = 0 := by simpa using h
      subst this
      rfl
  | succ n ih =>
      show natFromBytesBE (natToBytesBE n (v / 256) ++ [v % 256]) = v
      rw [natFromBytesBE_concat, ih (v / 256) ?hfit]
      · exact Nat.div_add_mod v 256
      case hfit =>
        rw [Nat.pow_succ'] at h
        exact Nat.div_lt_of_lt_mul h

/-- The fuel-driven bit length bounds its argument. -/
theorem bitLenGo_bound (f v : Nat) (h : v ≤ f) : v < 2 ^ bitLenGo f v := by
  induction f generalizing v with
  | zero =>
      have : v = 0 := by omega
      subst this
      show 0 < 2 ^ bitLenGo 0 0
      norm_num
  | succ f ih =>
      show v < 2 ^ (if v = 0 then 0 else bitLenGo f (v / 2) + 1)
      by_cases hv : v = 0
      · rw [if_pos hv, hv]; norm_num
      · rw [if_neg hv]
        have hdiv : v / 2 ≤ f := by omega
        have := ih (v / 2) hdiv
        rw [Nat.pow_succ]
        omega

/-- Any value fits in the width `get_index_bits_size` computes for it. -/
theorem lt_two_pow_getIndexBitsSize (v : Nat) : v < 2 ^ getIndexBitsSize v := by
  unfold getIndexBitsSize
  by_cases hv : v = 0
  · rw [if_pos hv, hv]; norm_num
  · rw [if_neg hv]
    exact bitLenGo_bound v v le_rfl

/-- A reference payload round-trips through `to_bytes` of the minimum
byte count the builder computes. -/
theorem refPayload_roundtrip (v : Nat) :
    natFromBytesBE (natToBytesBE ((getIndexBitsSize v + 7) / 8) v) = v := by
  apply natFromBytesBE_natToBytesBE
  have h1 : v < 2 ^ getIndexBitsSize v := lt_two_pow_getIndexBitsSize v
  have h2 : getIndexBitsSize v ≤ 8 * ((getIndexBitsSize v + 7) / 8) := by omega
  have h3 : (2 : Nat) ^ getIndexBitsSize v ≤ 2 ^ (8 * ((getIndexBitsSize v + 7) / 8)) :=
    Nat.pow_le_pow_right (by norm_num) h2
  have h4 : (2 : Nat) ^ (8 * ((getIndexBitsSize v + 7) / 8)) =
      256 ^ ((getIndexBitsSize v + 7) / 8) := by
    rw [Nat.pow_mul]
  omega

/-- A successful dictionary lookup comes from an entry of the list. -/
theorem mapLookup_mem (m : List (Bytes × Nat)) (h : Bytes) (v : Nat)
    (hl : mapLookup m h = some v) : ∃ k, (k, v) ∈ m := by
  unfold mapLookup at hl
  cases hf : m.find? (fun kv => kv.1 = h) with
  | none => rw [hf] at hl; cases hl
  | some kv =>
      rw [hf] at hl
      injection hl with hv
      refine ⟨kv.1, ?_⟩
      rw [← hv]
      exact List.mem_of_find?_eq_some hf

/-- `getD` on an appended list, inside the original part. -/
theorem getD_append_lt {α : Type} (l1 l2 : List α) (d : α) (n : Nat)
    (h : n < l1.length) : (l1 ++ l2).getD n d = l1.getD n d := by
  rw [List.getD_eq_getElem?_getD, List.getD_eq_getElem?_getD,
      List.getElem?_append, if_pos h]

/-- `getD` on a singleton appended at its own position. -/
theorem getD_append_self {α : Type} (l : List α) (a d : α) :
    (l ++ [a]).getD l.length d = a := by
  rw [List.getD_eq_getElem?_getD, List.getElem?_append, if_neg (by omega),
      Nat.sub_self]
  rfl

/-- `process_changed_block` preserves the dictionary and
backward-reference invariants. -/
theorem processChangedBlock_preserves (blockSize : Nat)
    (rle : List (Bytes × List (Nat × Nat))) (targetImage : Bytes)
    (store : SD.Store) (idx : Nat) (hsh : Bytes) (m m' : SD.Message)
    (hmap : SD.mapOk m) (hback : SD.backRefOk m)
    (hp : SD.processChangedBlock blockSize rle targetImage store idx hsh m =
      .ok m') : SD.mapOk m' ∧ SD.backRefOk m' := by
  unfold SD.processChangedBlock at hp
  cases hl : mapLookup m.hashToMessageIndex hsh with
  | some mi =>
      rw [hl] at hp
      dsimp only at hp
      injection hp with hp'
      subst hp'
      constructor
      · intro kv hkv
        have := hmap kv hkv
        dsimp only at hkv ⊢
        simp only [List.length_append, List.length_cons, List.length_nil]
        omega
      · intro p hplen hdt
        dsimp only at hplen hdt ⊢
        simp only [List.length_append, List.length_cons, List.length_nil] at hplen
        by_cases hcase : p < m.instructions.length
        · rw [getD_append_lt _ _ _ _ hcase] at hdt ⊢
          exact hback p hcase hdt
        · have hpe : p = m.instructions.length := by omega
          subst hpe
          rw [getD_append_self]
          rw [refPayload_roundtrip]
          obtain ⟨k, hk⟩ := mapLookup_mem _ _ _ hl
          exact hmap (k, mi) hk
  | none =>
      rw [hl] at hp
      dsimp only at hp
      by_cases hidx : SD.getIndexesByHash rle hsh ≠ []
      · rw [if_pos hidx] at hp
        injection hp with hp'
        subst hp'
        constructor
        · intro kv hkv
          dsimp only [mapInsert] at hkv ⊢
          simp only [List.mem_cons] at hkv
          simp only [List.length_append, List.length_cons, List.length_nil]
          rcases hkv with he | hold
          · subst he
            simp only [List.length_append, List.length_cons, List.length_nil]
            omega
          · have := hmap kv hold
            omega
        · intro p hplen hdt
          dsimp only at hplen hdt ⊢
          simp only [List.length_append, List.length_cons, List.length_nil] at hplen
          by_cases hcase : p < m.instructions.length
          · rw [getD_append_lt _ _ _ _ hcase] at hdt ⊢
            exact hback p hcase hdt
          · have hpe : p = m.instructions.length := by omega
            subst hpe
            rw [getD_append_self] at hdt
            cases hdt
      · rw [if_neg hidx] at hp
        by_cases hst : store.containsHash hsh = true
        · rw [if_pos hst] at hp
          cases hp
        · rw [if_neg hst] at hp
          injection hp with hp'
          subst hp'
          constructor
          · intro kv hkv
            dsimp only [mapInsert] at hkv ⊢
            simp only [List.mem_cons] at hkv
            simp only [List.length_append, List.length_cons, List.length_nil]
            rcases hkv with he | hold
            · subst he
              simp only [List.length_append, List.length_cons, List.length_nil]
              omega
            · have := hmap kv hold
              omega
          · intro p hplen hdt
            dsimp only at hplen hdt ⊢
            simp only [List.length_append, List.length_cons, List.length_nil] at hplen
            by_cases hcase : p < m.instructions.length
            · rw [getD_append_lt _ _ _ _ hcase] at hdt ⊢
              exact hback p hcase hdt
            · have hpe : p = m.instructions.length := by omega
              subst hpe
              rw [getD_append_self] at hdt
              cases hdt

/-- `updateGreatest` only updates the maxima: the message it returns is
the one passed in. -/
theorem updateGreatest_message (st : SD.BuildState) (m : SD.Message)
    (s : SD.Store) : (SD.updateGreatest st m s).message = m := by
  unfold SD.updateGreatest
  cases m.instructions.getLast? with
  | none => rfl
  | some inst =>
      dsimp only
      split_ifs <;> rfl

/-- The build loop preserves the dictionary and backward-reference
invariants. -/
theorem buildLoop_preserves (hashBits blockSize : Nat)
    (initImage targetImage : Bytes)
    (rle : List (Bytes × List (Nat × Nat))) :
    ∀ (remaining idx : Nat) (st : SD.BuildState) (out : SD.BuildState × Nat),
      SD.mapOk st.message → SD.backRefOk st.message →
      SD.buildLoop hashBits blockSize initImage targetImage rle remaining idx st =
        .ok out →
      SD.mapOk out.1.message ∧ SD.backRefOk out.1.message := by
  intro remaining
  induction remaining with
  | zero =>
      intro idx st out hm hb hrun
      unfold SD.buildLoop at hrun
      injection hrun with hrun'
      subst hrun'
      exact ⟨hm, hb⟩
  | succ r ih =>
      intro idx st out hm hb hrun
      unfold SD.buildLoop at hrun
      dsimp only at hrun
      by_cases h0 : SD.hashByIndex hashBits blockSize initImage idx = []
      · rw [if_pos h0] at hrun
        injection hrun with hrun'
        subst hrun'
        exact ⟨hm, hb⟩
      · rw [if_neg h0] at hrun
        by_cases hne : SD.hashByIndex hashBits blockSize initImage idx ≠
            SD.hashByIndex hashBits blockSize targetImage idx
        · rw [if_pos hne] at hrun
          cases hproc : SD.processChangedBlock blockSize rle targetImage st.store
              idx (SD.hashByIndex hashBits blockSize targetImage idx) st.message with
          | error e => rw [hproc] at hrun; cases hrun
          | ok msg2 =>
              rw [hproc] at hrun
              dsimp only at hrun
              cases hadd : st.store.add (SD.hashByIndex hashBits blockSize targetImage idx)
                  (SD.literalByIndex blockSize targetImage idx) with
              | error e => rw [hadd] at hrun; cases hrun
              | ok store2 =>
                  rw [hadd] at hrun
                  dsimp only at hrun
                  have hpres := processChangedBlock_preserves blockSize rle
                    targetImage st.store idx
                    (SD.hashByIndex hashBits blockSize targetImage idx) st.message
                    msg2 hm hb hproc
                  have hmsg := updateGreatest_message st msg2 store2
                  exact ih (idx + 1) (SD.updateGreatest st msg2 store2) out
                    (by rw [hmsg]; exact hpres.1) (by rw [hmsg]; exact hpres.2)
                    hrun
        · rw [if_neg hne] at hrun
          exact ih (idx + 1) st out hm hb hrun

/-- C6: backward references only. In every message the
`src/diskdelta/` builder produces, every MessageReference instruction's
payload decodes to an index strictly below the instruction's own
position in the instruction list. -/
theorem c6_message_references_backward (imageSize hashBits blockSize : Nat)
    (initImage targetImage : Bytes) (store : SD.Store) (m : SD.Message)
    (st' : SD.Store)
    (h : SD.buildMessage imageSize hashBits blockSize initImage targetImage
      store = .ok (m, st')) : SD.backRefOk m := by
  unfold SD.buildMessage at h
  dsimp only at h
  cases hrun : SD.buildLoop hashBits blockSize initImage targetImage
      (SD.mapperLoad hashBits blockSize initImage) imageSize 0
      ⟨SD.emptyMessage, store, 0, 0⟩ with
  | error e => rw [hrun] at h; cases h
  | ok out =>
      obtain ⟨stF, dIdx⟩ := out
      rw [hrun] at h
      dsimp only at h
      injection h with h'
      injection h' with hA hB
      subst hA
      have hm0 : SD.mapOk SD.emptyMessage := by
        intro kv hkv
        cases hkv
      have hb0 : SD.backRefOk SD.emptyMessage := by
        intro p hp
        simp [SD.emptyMessage] at hp
      have hpres := buildLoop_preserves hashBits blockSize initImage targetImage
        (SD.mapperLoad hashBits blockSize initImage) imageSize 0
        ⟨SD.emptyMessage, store, 0, 0⟩ (stF, dIdx) hm0 hb0 hrun
      exact hpres.2

/-- C6 (witness): the backward-reference theorem applied to a concrete
run (block size 1, digest size 8 bits, `I = 00 00 00`,
`T = 05 05 00`) whose message holds a Literal followed by a
MessageReference with payload 0 at position 1. -/
theorem c6_backward_witness :
    SD.backRefOk
      ⟨2, 2, 1, 1, [⟨0, .literal, [5]⟩, ⟨1, .messageReference, [0]⟩],
       [([231], 0)]⟩ :=
  c6_message_references_backward 3 8 1 [0, 0, 0] [5, 5, 0] ⟨1, 8, [], []⟩
    ⟨2, 2, 1, 1, [⟨0, .literal, [5]⟩, ⟨1, .messageReference, [0]⟩],
     [([231], 0)]⟩
    ⟨1, 8, [[231]], [231, 5]⟩ rfl

end ClaimC6
